import Mathlib

/-!
Verification of the opcode symbol-synchronization tool
(`src/tools/fix_generated_opcodes.py`).

The script is pure text processing, so we embed it shallowly over
`List Char`.  Each definition below mirrors one operation of the Python
source:

* `pyStrip`       models `str.strip()` (Python whitespace set),
* `stripComment`  models `re.sub(r'//.*', '', line)`,
* `dropComma`     models the trailing-comma removal,
* `firstToken`    models `line.split()[0]` on a stripped, nonempty line,
* `splitlines`    models `str.splitlines()` with newline as the break
                  character (the constructed inputs of the claims use
                  only newline breaks),
* `enumSearch`    models `re.search(r'enum class Opcode\s*\x7b([\s\S]*?)\x7d;', text)`
                  returning group 1 of the leftmost match (the lazy body
                  runs to the first close delimiter),
* `names_of` / `extract_names` model the extraction loop producing `names`,
* `index_to_name` models the dict `\x7bi: names[i] for i in range(len(names))\x7d`,
* `matchAt` / `replOp` / `rewrite` model
  `re.sub(r'Opcode::OP_(\d+)', repl_op, gtext)` (left-to-right scan,
  greedy digit run, no rescanning of substituted text),
* `opSearch` / `new_block` / `regen_debug_table` model the
  `OPCODE_NAMES` block replacement,
* `run_script` models the script control flow: `exit(1)` only when the
  enum block is missing, missing target files are skipped, a missing
  `OPCODE_NAMES` block merely prints a message.
-/

/-- Python whitespace characters (the set stripped by `str.strip()` and
matched by the regex class backslash-s): space, tab, newline, carriage
return, vertical tab, form feed. -/
def pySpace (c : Char) : Bool :=
  c == ' ' || c == '\t' || c == '\n' || c == '\r' || c == Char.ofNat 11 || c == Char.ofNat 12

/-- Model of `str.strip()`: drop Python whitespace from both ends. -/
def pyStrip (s : List Char) : List Char :=
  ((s.dropWhile pySpace).reverse.dropWhile pySpace).reverse

/-- Model of `re.sub(r'//.*', '', line)`: delete everything from the
first occurrence of two consecutive slashes to the end of the line. -/
def stripComment : List Char → List Char
  | [] => []
  | c :: t => if c = '/' ∧ t.head? = some '/' then [] else c :: stripComment t

/-- Model of the trailing-comma removal:
`if line.endswith(','): line = line[:-1]`. -/
def dropComma (s : List Char) : List Char :=
  if s.getLast? = some ',' then s.dropLast else s

/-- Model of `line.split()[0]` (first whitespace-separated token) for the
nonempty stripped lines on which the script uses it. -/
def firstToken (s : List Char) : List Char :=
  (s.dropWhile pySpace).takeWhile (fun c => !pySpace c)

/-- Model of `str.splitlines()` with newline as the line break: no
trailing empty line is produced for text ending in a newline. -/
def splitlines : List Char → List (List Char)
  | [] => []
  | c :: t =>
      if c = '\n' then [] :: splitlines t
      else
        match splitlines t with
        | [] => [[c]]
        | l :: ls => (c :: l) :: ls

/-- Match a fixed literal at the head of the text, returning the rest. -/
def dropLit : List Char → List Char → Option (List Char)
  | [], cs => some cs
  | _ :: _, [] => none
  | l :: lt, c :: ct => if c = l then dropLit lt ct else none

def lbrace : Char := '\x7b'

def rbrace : Char := '\x7d'

/-- The literal head of the enum declaration pattern. -/
def openLit : List Char := "enum class Opcode".data

/-- The literal of the placeholder reference pattern. -/
def opLit : List Char := "Opcode::OP_".data

/-- The literal opening delimiter of the `OPCODE_NAMES` block. -/
def mapLit : List Char := "const std::unordered_map<Opcode, std::string> OPCODE_NAMES = \x7b".data

/-- Try the opening of the enum pattern at the current position:
the literal, then a run of whitespace (the greedy whitespace star
backtracks only into whitespace, so taking the maximal run is exact),
then an opening brace.  Returns the text after the brace. -/
def matchOpenAt (cs : List Char) : Option (List Char) :=
  match dropLit openLit cs with
  | none => none
  | some r =>
      match r.dropWhile pySpace with
      | c :: r2 => if c = lbrace then some r2 else none
      | [] => none

/-- The lazy body of both block patterns: everything up to the first
close-brace-semicolon pair, together with the text after that pair. -/
def upToClose2 : List Char → Option (List Char × List Char)
  | [] => none
  | [_] => none
  | c1 :: c2 :: t =>
      if c1 = rbrace ∧ c2 = ';' then some ([], t)
      else (upToClose2 (c2 :: t)).map fun bs => (c1 :: bs.1, bs.2)

/-- Model of the enum-block search: scan left to right for the first
position where the opening pattern matches and a close delimiter
follows; return the lazy body (group 1). -/
def enumSearch : List Char → Option (List Char)
  | [] => none
  | c :: t =>
      match matchOpenAt (c :: t) with
      | some r =>
          match upToClose2 r with
          | some bs => some bs.1
          | none => enumSearch t
      | none => enumSearch t

/-- The outer comprehension over the block body:
`[l.strip() for l in body.splitlines() if l.strip()]`. -/
def outerStrip (l : List Char) : Option (List Char) :=
  let s := pyStrip l
  if s = [] then none else some s

/-- The per-line loop body: strip comments, re-strip, skip if blank,
drop a trailing comma, re-strip, skip if blank, take the first token. -/
def loopBody (line : List Char) : Option (List Char) :=
  let l1 := pyStrip (stripComment line)
  if l1 = [] then none
  else
    let l2 := pyStrip (dropComma l1)
    if l2 = [] then none else some (firstToken l2)

/-- The composed per-line treatment: outer strip-and-filter, then the
loop body. -/
def procLine (l : List Char) : Option (List Char) :=
  (outerStrip l).bind loopBody

/-- The extraction loop over the enum body producing `names`. -/
def names_of (body : List Char) : List (List Char) :=
  ((splitlines body).filterMap outerStrip).filterMap loopBody

/-- The whole Extractor: locate the block, then collect the names. -/
def extract_names (text : List Char) : Option (List (List Char)) :=
  (enumSearch text).map names_of

/-- Model of the dict `\x7bi: names[i] for i in range(len(names))\x7d`:
lookup succeeds exactly for indices below the length and returns the
name at that position. -/
def index_to_name (names : List (List Char)) (i : Nat) : Option (List Char) :=
  names.get? i

/-- Decimal value of the digit run captured by the placeholder pattern
(`int(match.group(1))`). -/
def valDigits (d : List Char) : Nat :=
  d.foldl (fun a c => 10 * a + (c.toNat - 48)) 0

/-- Model of `repl_op`: a known index becomes a symbolic reference, an
unknown one becomes the fallback cast embedding the parsed numeral. -/
def replOp (names : List (List Char)) (d : List Char) : List Char :=
  match index_to_name names (valDigits d) with
  | some n => "Opcode::".data ++ n
  | none => "static_cast<Opcode>(".data ++ (Nat.repr (valDigits d)).data ++ ")".data

/-- Try the placeholder pattern at the current position: the literal,
then a maximal nonempty run of decimal digits.  Returns the digit run
and the rest of the text. -/
def matchAt (cs : List Char) : Option (List Char × List Char) :=
  match dropLit opLit cs with
  | none => none
  | some r =>
      let d := r.takeWhile Char.isDigit
      if d = [] then none else some (d, r.dropWhile Char.isDigit)

/-- Fuelled left-to-right substitution scan of the Rewriter.  The fuel
is the length of the text, which suffices because each step consumes at
least one character; the fuel-zero branch is never reached on nonempty
text. -/
def rewriteF (names : List (List Char)) : Nat → List Char → List Char
  | 0, cs => cs
  | _ + 1, [] => []
  | f + 1, c :: t =>
      match matchAt (c :: t) with
      | some dr => replOp names dr.1 ++ rewriteF names f dr.2
      | none => c :: rewriteF names f t

/-- Model of `re.sub(r'Opcode::OP_(\d+)', repl_op, gtext)`. -/
def rewrite (names : List (List Char)) (cs : List Char) : List Char :=
  rewriteF names cs.length cs

/-- Fuelled count of placeholder matches found by the same scan. -/
def numMatchesF : Nat → List Char → Nat
  | 0, _ => 0
  | _ + 1, [] => 0
  | f + 1, c :: t =>
      match matchAt (c :: t) with
      | some dr => numMatchesF f dr.2 + 1
      | none => numMatchesF f t

/-- Number of placeholder matches in a text. -/
def numMatches (cs : List Char) : Nat :=
  numMatchesF cs.length cs

/-- Fuelled decomposition of a text into (literal, digit-run) pairs, one
per placeholder match, plus a trailing literal; this is the shape of the
Rewriter's single linear pass. -/
def segsF : Nat → List Char → List (List Char × List Char) × List Char
  | 0, cs => ([], cs)
  | _ + 1, [] => ([], [])
  | f + 1, c :: t =>
      match matchAt (c :: t) with
      | some dr =>
          let ps := segsF f dr.2
          (([], dr.1) :: ps.1, ps.2)
      | none =>
          let ps := segsF f t
          match ps.1 with
          | [] => ([], c :: ps.2)
          | ld :: rest2 => ((c :: ld.1, ld.2) :: rest2, ps.2)

/-- Decomposition of a text along its placeholder matches. -/
def segs (cs : List Char) : List (List Char × List Char) × List Char :=
  segsF cs.length cs

/-- Reassemble a decomposition with the original placeholder text. -/
def joinOrig : List (List Char × List Char) × List Char → List Char
  | ([], fin) => fin
  | (ld :: ps, fin) => ld.1 ++ opLit ++ ld.2 ++ joinOrig (ps, fin)

/-- Reassemble a decomposition with each match replaced by `replOp`. -/
def joinRepl (names : List (List Char)) : List (List Char × List Char) × List Char → List Char
  | ([], fin) => fin
  | (ld :: ps, fin) => ld.1 ++ replOp names ld.2 ++ joinRepl names (ps, fin)

/-- One debug-table entry, from the f-string
`'    \x7b\x7bOpcode::\x7bname\x7d, "\x7bname\x7d"\x7d\x7d,'`. -/
def entryFor (n : List Char) : List Char :=
  "    \x7bOpcode::".data ++ n ++ ", \"".data ++ n ++ "\"\x7d,".data

/-- Model of `str.join`. -/
def joinSep (sep : List Char) : List (List Char) → List Char
  | [] => []
  | [x] => x
  | x :: y :: xs => x ++ sep ++ joinSep sep (y :: xs)

/-- The replacement `new_block` built from the names alone. -/
def new_block (names : List (List Char)) : List Char :=
  mapLit ++ '\n' :: (joinSep ['\n'] (names.map entryFor) ++ '\n' :: rbrace :: ';' :: [])

/-- Model of the `OPCODE_NAMES` block search: leftmost occurrence of the
opening literal followed by a lazy body up to the first close delimiter.
Returns the decomposition (text before the match, body, text after). -/
def opSearch : List Char → Option (List Char × List Char × List Char)
  | [] => none
  | c :: t =>
      match dropLit mapLit (c :: t) with
      | some r =>
          match upToClose2 r with
          | some bs => some ([], bs.1, bs.2)
          | none => (opSearch t).map fun x => (c :: x.1, x.2.1, x.2.2)
      | none => (opSearch t).map fun x => (c :: x.1, x.2.1, x.2.2)

/-- Model of the Debug Table Regenerator on the parser-file text:
splice `new_block` between the text before the match start and the text
after the match end; leave the text unchanged when the block is not
found (the script only prints a message in that case). -/
def regen_debug_table (names : List (List Char)) (pt : List Char) : List Char :=
  match opSearch pt with
  | some x => x.1 ++ new_block names ++ x.2.2
  | none => pt

/-- Result of one run: the process exit code and the final contents of
the two target files (`none` models a missing file, which the script
skips). -/
structure ScriptResult where
  exitCode : Nat
  genOut : Option (List Char)
  parserOut : Option (List Char)
deriving DecidableEq

/-- Model of the script control flow: `exit(1)` exactly when the enum
block is missing (before any write); otherwise both target files are
processed when present and the process exits 0 — also when the
`OPCODE_NAMES` block was not found (only a message is printed). -/
def run_script (opT : List Char) (genT parserT : Option (List Char)) : ScriptResult :=
  match enumSearch opT with
  | none => ⟨1, genT, parserT⟩
  | some body =>
      let names := names_of body
      ⟨0, genT.map (rewrite names), parserT.map (regen_debug_table names)⟩

/-- Body text of an enum block rendered from a list of member lines. -/
def enumBodyOf (ls : List (List Char)) : List Char :=
  '\n' :: (ls.map (fun l => l ++ ['\n'])).flatten

/-- An enumeration source text holding a single declaration block with
the given member lines. -/
def renderEnumLines (ls : List (List Char)) : List Char :=
  openLit ++ ' ' :: lbrace :: (enumBodyOf ls ++ rbrace :: ';' :: [])

/-- An enumeration source text declaring the given names, one per line,
each followed by a comma. -/
def renderEnum (L : List (List Char)) : List Char :=
  renderEnumLines (L.map fun n => n ++ [','])

/-- An enum member line with an explicit value: `name = value,`. -/
def renderLineEq (n v : List Char) : List Char :=
  n ++ ' ' :: '=' :: ' ' :: (v ++ [','])

/-- Identifier characters: letters, digits, underscore. -/
def identChar (c : Char) : Bool :=
  c.isAlphanum || c == '_'

/-! ### Basic facts about the character-level helpers -/

lemma dropLit_sound : ∀ (l cs r : List Char), dropLit l cs = some r → cs = l ++ r := by
  intro l
  induction l with
  | nil => intro cs r h; simp [dropLit] at h; simp [h]
  | cons x lt ih =>
      intro cs r h
      cases cs with
      | nil => simp [dropLit] at h
      | cons c ct =>
          by_cases hc : c = x
          · simp [dropLit, hc] at h
            simpa [hc] using congrArg (x :: ·) (ih ct r h)
          · simp [dropLit, hc] at h

lemma dropLit_self : ∀ (l r : List Char), dropLit l (l ++ r) = some r := by
  intro l
  induction l with
  | nil => intro r; simp [dropLit]
  | cons x lt ih => intro r; simp [dropLit, ih]

lemma upToClose2_sound : ∀ (cs b s : List Char),
    upToClose2 cs = some (b, s) → cs = b ++ rbrace :: ';' :: s := by
  intro cs
  induction cs with
  | nil => intro b s h; simp [upToClose2] at h
  | cons c1 rest ih =>
      intro b s h
      cases rest with
      | nil => simp [upToClose2] at h
      | cons c2 t =>
          by_cases hcond : c1 = rbrace ∧ c2 = ';'
          · simp [upToClose2, hcond] at h
            simp [hcond.1, hcond.2, ← h.1, ← h.2]
          · cases hrec : upToClose2 (c2 :: t) with
            | none => simp [upToClose2, hcond, hrec] at h
            | some bs =>
                have hbs := ih bs.1 bs.2 (by rw [hrec])
                simp [upToClose2, hcond, hrec] at h
                rw [← h.1, ← h.2]
                simpa using congrArg (c1 :: ·) hbs

lemma upToClose2_clean (s : List Char) : ∀ (b : List Char), rbrace ∉ b →
    upToClose2 (b ++ rbrace :: ';' :: s) = some (b, s) := by
  intro b
  induction b with
  | nil => intro _; simp [upToClose2]
  | cons c b' ih =>
      intro h
      have hc : ¬(c = rbrace) := fun he => h (by rw [he]; exact List.mem_cons_self _ _)
      have h' : rbrace ∉ b' := fun hm => h (List.mem_cons_of_mem _ hm)
      cases hb : b' ++ rbrace :: ';' :: s with
      | nil => exact absurd hb (by simp)
      | cons c2 t =>
          have hgoal : (c :: b') ++ rbrace :: ';' :: s = c :: c2 :: t := by
            simp [List.cons_append, hb]
          rw [hgoal]
          have hrec : upToClose2 (c2 :: t) = some (b', s) := by rw [← hb]; exact ih h'
          simp [upToClose2, hc, hrec]

lemma splitlines_line : ∀ (l r : List Char), '\n' ∉ l →
    splitlines (l ++ '\n' :: r) = l :: splitlines r := by
  intro l
  induction l with
  | nil => intro r _; simp [splitlines]
  | cons c l' ih =>
      intro r h
      have hc : ¬(c = '\n') := fun he => h (by rw [he]; exact List.mem_cons_self _ _)
      have h' : '\n' ∉ l' := fun hm => h (List.mem_cons_of_mem _ hm)
      simp only [List.cons_append, splitlines, hc, if_false, List.append_eq]
      rw [ih r h']

lemma splitlines_flatten : ∀ (ls : List (List Char)), (∀ l ∈ ls, '\n' ∉ l) →
    splitlines ((ls.map (fun l => l ++ ['\n'])).flatten) = ls := by
  intro ls
  induction ls with
  | nil => intro _; simp [splitlines]
  | cons l ls' ih =>
      intro h
      have h1 : '\n' ∉ l := h l (List.mem_cons_self _ _)
      have h2 : ∀ x ∈ ls', '\n' ∉ x := fun x hx => h x (List.mem_cons_of_mem _ hx)
      have hshape : ((l :: ls').map (fun x => x ++ ['\n'])).flatten
          = l ++ '\n' :: ((ls'.map (fun x => x ++ ['\n'])).flatten) := by
        simp [List.append_assoc]
      rw [hshape, splitlines_line l _ h1, ih h2]

lemma dropWhile_head_false (p : Char → Bool) (s : List Char)
    (h : ∀ c, s.head? = some c → p c = false) : s.dropWhile p = s := by
  cases s with
  | nil => rfl
  | cons c t => simp [List.dropWhile_cons, h c rfl]

lemma pyStrip_keep (s : List Char)
    (h1 : ∀ c, s.head? = some c → pySpace c = false)
    (h2 : ∀ c, s.getLast? = some c → pySpace c = false) : pyStrip s = s := by
  unfold pyStrip
  rw [dropWhile_head_false _ _ h1]
  rw [dropWhile_head_false _ _ (fun c hc => h2 c (by rwa [List.head?_reverse] at hc))]
  exact s.reverse_reverse

lemma stripComment_id : ∀ (s : List Char), '/' ∉ s → stripComment s = s := by
  intro s
  induction s with
  | nil => intro _; rfl
  | cons c t ih =>
      intro h
      have hc : ¬(c = '/') := fun he => h (by rw [he]; exact List.mem_cons_self _ _)
      have h' : '/' ∉ t := fun hm => h (List.mem_cons_of_mem _ hm)
      simp [stripComment, hc, ih h']

lemma takeWhile_all_append (p : Char → Bool) : ∀ (l r : List Char), (∀ c ∈ l, p c = true) →
    (l ++ r).takeWhile p = l ++ r.takeWhile p := by
  intro l
  induction l with
  | nil => intro r _; rfl
  | cons c t ih =>
      intro r h
      have hc : p c = true := h c (List.mem_cons_self _ _)
      simp [List.takeWhile_cons, hc, ih r (fun x hx => h x (List.mem_cons_of_mem _ hx))]

lemma firstToken_exact (n rest : List Char) (hne : n ≠ [])
    (hn : ∀ c ∈ n, pySpace c = false)
    (hr : ∀ c, rest.head? = some c → pySpace c = true) : firstToken (n ++ rest) = n := by
  unfold firstToken
  have hd : (n ++ rest).dropWhile pySpace = n ++ rest := by
    apply dropWhile_head_false
    intro c hc
    cases n with
    | nil => exact absurd rfl hne
    | cons x t =>
        simp at hc
        rw [← hc]
        exact hn x (List.mem_cons_self _ _)
  rw [hd, takeWhile_all_append _ _ _ (fun c hc => by simp [hn c hc])]
  cases rest with
  | nil => simp
  | cons c t => simp [List.takeWhile_cons, hr c rfl]

lemma mem_of_getLast_opt : ∀ (s : List Char) (c : Char), s.getLast? = some c → c ∈ s := by
  intro s
  induction s with
  | nil => intro c h; simp at h
  | cons x t ih =>
      intro c h
      cases t with
      | nil => simp at h; simp [h]
      | cons y u =>
          rw [List.getLast?_cons_cons] at h
          exact List.mem_cons_of_mem _ (ih c h)

lemma getLast_opt_append (l1 l2 : List Char) (h : l2 ≠ []) :
    (l1 ++ l2).getLast? = l2.getLast? := by
  rw [← List.head?_reverse, ← List.head?_reverse, List.reverse_append]
  cases hrev : l2.reverse with
  | nil => exact absurd (by simpa using hrev) h
  | cons c t => simp

/-! ### Identifier characters versus the delimiter characters -/

lemma identChar_not_pySpace (c : Char) (h : identChar c = true) : pySpace c = false := by
  cases hsp : pySpace c with
  | false => rfl
  | true =>
      exfalso
      simp [pySpace] at hsp
      rcases hsp with ((((rfl | rfl) | rfl) | rfl) | rfl) | rfl <;> exact absurd h (by decide)

lemma ne_of_identChar (c x : Char) (h : identChar c = true) (hx : identChar x = false) :
    c ≠ x := by
  intro he
  rw [he, hx] at h
  exact Bool.noConfusion h

lemma identChar_ne_newline (c : Char) (h : identChar c = true) : c ≠ '\n' :=
  ne_of_identChar c '\n' h (by decide)

lemma identChar_ne_rbrace (c : Char) (h : identChar c = true) : c ≠ rbrace :=
  ne_of_identChar c rbrace h (by decide)

lemma identChar_ne_slash (c : Char) (h : identChar c = true) : c ≠ '/' :=
  ne_of_identChar c '/' h (by decide)

/-! ### The per-line treatment on the two line shapes used by the claims -/

lemma procLine_comma (n : List Char) (hne : n ≠ [])
    (hid : ∀ c ∈ n, identChar c = true) : procLine (n ++ [',']) = some n := by
  have hhead : ∀ c, (n ++ [',']).head? = some c → pySpace c = false := by
    intro c hc
    cases n with
    | nil => exact absurd rfl hne
    | cons x t =>
        simp at hc
        rw [← hc]
        exact identChar_not_pySpace x (hid x (List.mem_cons_self _ _))
  have hlast : ∀ c, (n ++ [',']).getLast? = some c → pySpace c = false := by
    intro c hc
    rw [List.getLast?_concat] at hc
    cases hc; decide
  have hstrip : pyStrip (n ++ [',']) = n ++ [','] := pyStrip_keep _ hhead hlast
  have hslash : '/' ∉ n ++ [','] := by
    intro hm
    rcases List.mem_append.mp hm with hm1 | hm1
    · exact identChar_ne_slash '/' (hid '/' hm1) rfl
    · simp at hm1
  have hcomment : stripComment (n ++ [',']) = n ++ [','] := stripComment_id _ hslash
  have hdrop : dropComma (n ++ [',']) = n := by
    simp [dropComma, List.getLast?_concat]
  have hstripn : pyStrip n = n := by
    apply pyStrip_keep
    · intro c hc
      cases n with
      | nil => simp at hc
      | cons x t =>
          simp at hc
          rw [← hc]
          exact identChar_not_pySpace x (hid x (List.mem_cons_self _ _))
    · intro c hc
      exact identChar_not_pySpace c (hid c (mem_of_getLast_opt n c hc))
  have hfirst : firstToken n = n := by
    have := firstToken_exact n [] hne
      (fun c hc => identChar_not_pySpace c (hid c hc))
      (fun c hc => by simp at hc)
    simpa using this
  simp [procLine, outerStrip, hstrip, loopBody, hcomment, hdrop, hstripn, hne, hfirst]

lemma procLine_eqval (n v : List Char) (hn1 : n ≠ [])
    (hn2 : ∀ c ∈ n, identChar c = true) (hv1 : v ≠ [])
    (hv2 : ∀ c ∈ v, identChar c = true) : procLine (renderLineEq n v) = some n := by
  have hline : renderLineEq n v = (n ++ ' ' :: '=' :: ' ' :: v) ++ [','] := by
    simp [renderLineEq]
  have hheadn : ∀ (r : List Char) (c : Char), (n ++ r).head? = some c → pySpace c = false := by
    intro r c hc
    cases n with
    | nil => exact absurd rfl hn1
    | cons x t =>
        simp at hc
        rw [← hc]
        exact identChar_not_pySpace x (hn2 x (List.mem_cons_self _ _))
  have hstrip : pyStrip (renderLineEq n v) = renderLineEq n v := by
    apply pyStrip_keep
    · intro c hc
      apply hheadn (' ' :: '=' :: ' ' :: (v ++ [','])) c
      simpa [renderLineEq, List.append_assoc] using hc
    · intro c hc
      rw [hline, List.getLast?_concat] at hc
      cases hc; decide
  have hslash : '/' ∉ renderLineEq n v := by
    intro hm
    rw [hline] at hm
    rcases List.mem_append.mp hm with hm1 | hm1
    · rcases List.mem_append.mp hm1 with hm2 | hm2
      · exact identChar_ne_slash '/' (hn2 '/' hm2) rfl
      · rcases List.mem_cons.mp hm2 with he | hm3
        · exact absurd he (by decide)
        · rcases List.mem_cons.mp hm3 with he | hm4
          · exact absurd he (by decide)
          · rcases List.mem_cons.mp hm4 with he | hm5
            · exact absurd he (by decide)
            · exact identChar_ne_slash '/' (hv2 '/' hm5) rfl
    · exact absurd hm1 (by decide)
  have hcomment : stripComment (renderLineEq n v) = renderLineEq n v :=
    stripComment_id _ hslash
  have hdrop : dropComma (renderLineEq n v) = n ++ ' ' :: '=' :: ' ' :: v := by
    have h1 : ((n ++ ' ' :: '=' :: ' ' :: v) ++ [',']).getLast? = some ',' :=
      List.getLast?_concat _
    rw [hline]
    unfold dropComma
    rw [h1]
    simp only [if_pos rfl, if_true]
    rw [List.dropLast_concat]
  have hstrip2 : pyStrip (n ++ ' ' :: '=' :: ' ' :: v) = n ++ ' ' :: '=' :: ' ' :: v := by
    apply pyStrip_keep
    · exact hheadn _
    · intro c hc
      have hshape : n ++ ' ' :: '=' :: ' ' :: v = (n ++ [' ', '=', ' ']) ++ v := by
        simp [List.append_assoc]
      rw [hshape, getLast_opt_append _ _ hv1] at hc
      exact identChar_not_pySpace c (hv2 c (mem_of_getLast_opt v c hc))
  have hne2 : n ++ ' ' :: '=' :: ' ' :: v ≠ [] := by simp
  have hfirst : firstToken (n ++ ' ' :: '=' :: ' ' :: v) = n := by
    apply firstToken_exact n _ hn1 (fun c hc => identChar_not_pySpace c (hn2 c hc))
    intro c hc
    simp at hc
    rw [← hc]
    decide
  have hlinene : renderLineEq n v ≠ [] := by simp [renderLineEq]
  simp [procLine, outerStrip, hstrip, loopBody, hcomment, hdrop, hstrip2, hne2, hlinene, hfirst]

/-! ### Locating and processing a rendered declaration block -/

lemma rbrace_not_in_enumBodyOf (ls : List (List Char)) (h : ∀ l ∈ ls, rbrace ∉ l) :
    rbrace ∉ enumBodyOf ls := by
  intro hm
  rcases List.mem_cons.mp hm with he | hm2
  · exact absurd he (by decide)
  · rcases List.mem_flatten.mp hm2 with ⟨l, hl, hml⟩
    rcases List.mem_map.mp hl with ⟨x, hx, rfl⟩
    rcases List.mem_append.mp hml with hm3 | hm3
    · exact h x hx hm3
    · exact absurd hm3 (by decide)

lemma enumSearch_hit (cs r b s : List Char) (h1 : matchOpenAt cs = some r)
    (h2 : upToClose2 r = some (b, s)) : enumSearch cs = some b := by
  cases cs with
  | nil =>
      have hn : matchOpenAt ([] : List Char) = none := by decide
      rw [hn] at h1
      exact Option.noConfusion h1
  | cons c t => simp [enumSearch, h1, h2]

lemma enum_render_search (ls : List (List Char)) (rest : List Char)
    (hbr : ∀ l ∈ ls, rbrace ∉ l) :
    enumSearch (renderEnumLines ls ++ rest) = some (enumBodyOf ls) := by
  have hshape : renderEnumLines ls ++ rest
      = openLit ++ (' ' :: lbrace :: (enumBodyOf ls ++ rbrace :: ';' :: rest)) := by
    simp [renderEnumLines]
  have hsp1 : pySpace ' ' = true := by decide
  have hsp2 : pySpace lbrace = false := by decide
  have hopen : matchOpenAt (renderEnumLines ls ++ rest)
      = some (enumBodyOf ls ++ rbrace :: ';' :: rest) := by
    rw [hshape]
    unfold matchOpenAt
    rw [dropLit_self]
    simp [List.dropWhile_cons, hsp1, hsp2]
  exact enumSearch_hit _ _ _ _ hopen
    (upToClose2_clean rest _ (rbrace_not_in_enumBodyOf ls hbr))

lemma names_of_render (ls : List (List Char)) (hnl : ∀ l ∈ ls, '\n' ∉ l) :
    names_of (enumBodyOf ls) = ls.filterMap procLine := by
  unfold names_of enumBodyOf
  rw [show splitlines ('\n' :: ((ls.map (fun l => l ++ ['\n'])).flatten))
      = [] :: splitlines ((ls.map (fun l => l ++ ['\n'])).flatten) from by simp [splitlines]]
  rw [splitlines_flatten ls hnl]
  rw [show List.filterMap outerStrip ([] :: ls) = List.filterMap outerStrip ls from by
    rw [List.filterMap_cons]
    rw [show outerStrip [] = none from rfl]]
  rw [List.filterMap_filterMap]
  rfl

lemma extract_render (ls : List (List Char)) (rest : List Char)
    (h : ∀ l ∈ ls, '\n' ∉ l ∧ rbrace ∉ l) :
    extract_names (renderEnumLines ls ++ rest) = some (ls.filterMap procLine) := by
  unfold extract_names
  rw [enum_render_search ls rest (fun l hl => (h l hl).2)]
  rw [Option.map_some']
  rw [names_of_render ls (fun l hl => (h l hl).1)]

lemma filterMap_proc_map {α : Type} (g : α → List Char) (out : α → List Char) :
    ∀ (L : List α), (∀ a ∈ L, procLine (g a) = some (out a)) →
    (L.map g).filterMap procLine = L.map out := by
  intro L
  induction L with
  | nil => intro _; rfl
  | cons a L' ih =>
      intro h
      simp only [List.map_cons, List.filterMap_cons, h a (List.mem_cons_self _ _)]
      rw [ih (fun x hx => h x (List.mem_cons_of_mem _ hx))]

lemma bool_true_ne_false {b : Bool} (h1 : b = true) (h2 : b = false) : False := by
  rw [h1] at h2
  exact Bool.noConfusion h2

lemma comma_line_cond (n : List Char) (hid : ∀ c ∈ n, identChar c = true) :
    '\n' ∉ n ++ [','] ∧ rbrace ∉ n ++ [','] := by
  constructor
  · intro hm
    rcases List.mem_append.mp hm with hm1 | hm1
    · exact identChar_ne_newline '\n' (hid '\n' hm1) rfl
    · exact absurd hm1 (by decide)
  · intro hm
    rcases List.mem_append.mp hm with hm1 | hm1
    · exact identChar_ne_rbrace rbrace (hid rbrace hm1) rfl
    · exact absurd hm1 (by decide)

lemma notMem_renderLineEq (x : Char) (n v : List Char)
    (hn2 : ∀ c ∈ n, identChar c = true) (hv2 : ∀ c ∈ v, identChar c = true)
    (hx : identChar x = false) (h1 : x ≠ ' ') (h2 : x ≠ '=') (h3 : x ≠ ',') :
    x ∉ renderLineEq n v := by
  intro hm
  unfold renderLineEq at hm
  rcases List.mem_append.mp hm with hm1 | hm1
  · exact bool_true_ne_false (hn2 x hm1) hx
  · rcases List.mem_cons.mp hm1 with he | hm2
    · exact h1 he
    · rcases List.mem_cons.mp hm2 with he | hm3
      · exact h2 he
      · rcases List.mem_cons.mp hm3 with he | hm4
        · exact h1 he
        · rcases List.mem_append.mp hm4 with hm5 | hm5
          · exact bool_true_ne_false (hv2 x hm5) hx
          · rcases List.mem_cons.mp hm5 with he | hm6
            · exact h3 he
            · exact absurd hm6 (by simp)

/-! ### The Rewriter scan: decomposition along its matches -/

lemma matchAt_sound (cs d rest : List Char) (h : matchAt cs = some (d, rest)) :
    cs = opLit ++ d ++ rest ∧ d ≠ [] ∧ ∀ c ∈ d, c.isDigit = true := by
  unfold matchAt at h
  cases hdl : dropLit opLit cs with
  | none => rw [hdl] at h; exact Option.noConfusion h
  | some r =>
      rw [hdl] at h
      by_cases hd : r.takeWhile Char.isDigit = []
      · simp [hd] at h
      · simp [hd] at h
        refine ⟨?_, ?_, ?_⟩
        · rw [dropLit_sound _ _ _ hdl, ← h.1, ← h.2, List.append_assoc,
            List.takeWhile_append_dropWhile]
        · rw [← h.1]; exact hd
        · intro c hc
          rw [← h.1] at hc
          exact List.mem_takeWhile_imp hc

lemma joinOrig_segsF : ∀ (f : Nat) (cs : List Char), joinOrig (segsF f cs) = cs := by
  intro f
  induction f with
  | zero => intro cs; simp [segsF, joinOrig]
  | succ f ih =>
      intro cs
      cases cs with
      | nil => simp [segsF, joinOrig]
      | cons c t =>
          cases hm : matchAt (c :: t) with
          | some dr =>
              have hsound := matchAt_sound (c :: t) dr.1 dr.2 (by rw [hm])
              have hjoin : joinOrig (segsF f dr.2) = dr.2 := ih dr.2
              simp [segsF, hm, joinOrig, hjoin]
              rw [← List.append_assoc, ← hsound.1]
          | none =>
              rcases hps : segsF f t with ⟨ps1, fin⟩
              have ihh := ih t
              rw [hps] at ihh
              cases ps1 with
              | nil =>
                  simp [segsF, hm, hps, joinOrig]
                  simpa [joinOrig] using ihh
              | cons ld ps' =>
                  simp [segsF, hm, hps, joinOrig]
                  rw [show joinOrig (ld :: ps', fin) = ld.1 ++ opLit ++ ld.2 ++ joinOrig (ps', fin)
                    from by simp [joinOrig]] at ihh
                  simp [← List.append_assoc] at ihh ⊢
                  exact ihh

lemma rewriteF_joinRepl (names : List (List Char)) :
    ∀ (f : Nat) (cs : List Char), rewriteF names f cs = joinRepl names (segsF f cs) := by
  intro f
  induction f with
  | zero => intro cs; simp [rewriteF, segsF, joinRepl]
  | succ f ih =>
      intro cs
      cases cs with
      | nil => simp [rewriteF, segsF, joinRepl]
      | cons c t =>
          cases hm : matchAt (c :: t) with
          | some dr =>
              simp [rewriteF, segsF, hm, joinRepl]
              exact ih dr.2
          | none =>
              rcases hps : segsF f t with ⟨ps1, fin⟩
              have ihh := ih t
              rw [hps] at ihh
              cases ps1 with
              | nil =>
                  simp [rewriteF, segsF, hm, hps, joinRepl]
                  simpa [joinRepl] using ihh
              | cons ld ps' =>
                  simp [rewriteF, segsF, hm, hps, joinRepl]
                  rw [show joinRepl names (ld :: ps', fin)
                      = ld.1 ++ replOp names ld.2 ++ joinRepl names (ps', fin)
                    from by simp [joinRepl]] at ihh
                  simp [← List.append_assoc] at ihh ⊢
                  exact ihh

lemma segsF_digits : ∀ (f : Nat) (cs : List Char), ∀ ld ∈ (segsF f cs).1,
    ld.2 ≠ [] ∧ ∀ c ∈ ld.2, c.isDigit = true := by
  intro f
  induction f with
  | zero => intro cs ld hld; simp [segsF] at hld
  | succ f ih =>
      intro cs ld hld
      cases cs with
      | nil => simp [segsF] at hld
      | cons c t =>
          cases hm : matchAt (c :: t) with
          | some dr =>
              have hsound := matchAt_sound (c :: t) dr.1 dr.2 (by rw [hm])
              rw [show segsF (f + 1) (c :: t)
                  = (([], dr.1) :: (segsF f dr.2).1, (segsF f dr.2).2) from by
                simp [segsF, hm]] at hld
              rcases List.mem_cons.mp hld with he | hm2
              · rw [he]; exact ⟨hsound.2.1, hsound.2.2⟩
              · exact ih dr.2 ld hm2
          | none =>
              rcases hps : segsF f t with ⟨ps1, fin⟩
              have iht := ih t
              rw [hps] at iht
              cases ps1 with
              | nil => simp [segsF, hm, hps] at hld
              | cons ld0 ps' =>
                  rw [show segsF (f + 1) (c :: t)
                      = ((c :: ld0.1, ld0.2) :: ps', fin) from by simp [segsF, hm, hps]] at hld
                  rcases List.mem_cons.mp hld with he | hm2
                  · rw [he]
                    exact iht ld0 (List.mem_cons_self _ _)
                  · exact iht ld (List.mem_cons_of_mem _ hm2)

lemma rewriteF_id_of_no_matches (names : List (List Char)) :
    ∀ (f : Nat) (cs : List Char), numMatchesF f cs = 0 → rewriteF names f cs = cs := by
  intro f
  induction f with
  | zero => intro cs _; rfl
  | succ f ih =>
      intro cs h
      cases cs with
      | nil => rfl
      | cons c t =>
          cases hm : matchAt (c :: t) with
          | some dr =>
              rw [show numMatchesF (f + 1) (c :: t) = numMatchesF f dr.2 + 1 from by
                simp [numMatchesF, hm]] at h
              exact absurd h (by simp)
          | none =>
              rw [show numMatchesF (f + 1) (c :: t) = numMatchesF f t from by
                simp [numMatchesF, hm]] at h
              simp [rewriteF, hm, ih t h]

/-! ### The debug-table block search -/

lemma opSearch_sound : ∀ (cs p b s : List Char),
    opSearch cs = some (p, b, s) → cs = p ++ mapLit ++ b ++ rbrace :: ';' :: s := by
  intro cs
  induction cs with
  | nil => intro p b s h; simp [opSearch] at h
  | cons c t ih =>
      intro p b s h
      cases hdl : dropLit mapLit (c :: t) with
      | some r =>
          cases hc : upToClose2 r with
          | some bs =>
              simp [opSearch, hdl, hc] at h
              obtain ⟨hp, hbs⟩ := h
              rw [hbs] at hc
              rw [hp, dropLit_sound _ _ _ hdl, upToClose2_sound r b s hc]
              simp
          | none =>
              cases hop : opSearch t with
              | none => simp [opSearch, hdl, hc, hop] at h
              | some x =>
                  simp [opSearch, hdl, hc, hop] at h
                  obtain ⟨hp, hx2⟩ := h
                  have hx := ih x.1 x.2.1 x.2.2 (by rw [hop])
                  have hb : x.2.1 = b := by rw [hx2]
                  have hs : x.2.2 = s := by rw [hx2]
                  rw [← hp, hx, hb, hs]
                  simp
      | none =>
          cases hop : opSearch t with
          | none => simp [opSearch, hdl, hop] at h
          | some x =>
              simp [opSearch, hdl, hop] at h
              obtain ⟨hp, hx2⟩ := h
              have hx := ih x.1 x.2.1 x.2.2 (by rw [hop])
              have hb : x.2.1 = b := by rw [hx2]
              have hs : x.2.2 = s := by rw [hx2]
              rw [← hp, hx, hb, hs]
              simp

/-! ### Extraction of a rendered enumeration -/

lemma renderEnum_parts (L : List (List Char))
    (hv : ∀ n ∈ L, n ≠ [] ∧ ∀ c ∈ n, identChar c = true) :
    enumSearch (renderEnum L) = some (enumBodyOf (L.map (fun n => n ++ [','])))
    ∧ names_of (enumBodyOf (L.map (fun n => n ++ [',']))) = L := by
  have hcond : ∀ l ∈ L.map (fun n => n ++ [',']), '\n' ∉ l ∧ rbrace ∉ l := by
    intro l hl
    rcases List.mem_map.mp hl with ⟨n, hn, rfl⟩
    exact comma_line_cond n (hv n hn).2
  constructor
  · have h := enum_render_search (L.map (fun n => n ++ [','])) [] (fun l hl => (hcond l hl).2)
    rw [List.append_nil] at h
    exact h
  · rw [names_of_render _ (fun l hl => (hcond l hl).1)]
    rw [filterMap_proc_map (fun n => n ++ [',']) id L
      (fun a ha => procLine_comma a (hv a ha).1 (fun c hc => (hv a ha).2 c hc))]
    simp

/-! ### The claims -/

/-- C1: for every enumeration source text declaring N unique valid
identifiers in a single declaration block, the Extractor returns exactly
those N names in declaration order, and the Symbol Table Builder's table
maps every index i below N to names[i]. -/
theorem claim1_extractor_and_table (L : List (List Char))
    (hv : ∀ n ∈ L, n ≠ [] ∧ ∀ c ∈ n, identChar c = true) (hnd : L.Nodup) :
    extract_names (renderEnum L) = some L ∧
    ∀ i (hi : i < L.length), index_to_name L i = some (L.get ⟨i, hi⟩) := by
  constructor
  · unfold extract_names
    rw [(renderEnum_parts L hv).1, Option.map_some', (renderEnum_parts L hv).2]
  · intro i hi
    exact List.get?_eq_get hi

theorem claim1_witness :
    extract_names (renderEnum ["LOAD".data, "STORE".data, "JUMP".data]) =
      some ["LOAD".data, "STORE".data, "JUMP".data] ∧
    index_to_name ["LOAD".data, "STORE".data, "JUMP".data] 1 =
      some (["LOAD".data, "STORE".data, "JUMP".data].get ⟨1, by decide⟩) :=
  ⟨(claim1_extractor_and_table ["LOAD".data, "STORE".data, "JUMP".data]
      (by decide) (by decide)).1,
   (claim1_extractor_and_table ["LOAD".data, "STORE".data, "JUMP".data]
      (by decide) (by decide)).2 1 (by decide)⟩

/-- C2 (counterexample): an enumeration source that declares the same
name twice is accepted without any error: the run exits 0 and the
generated file is rewritten (so it is modified), contradicting the claim
that a duplicate raises `DuplicateSymbolError` and leaves every target
file untouched. -/
theorem claim2_counterexample :
    run_script (renderEnum [['A'], ['A']]) (some "Opcode::OP_1".data) none =
      ⟨0, some "Opcode::A".data, none⟩ ∧
    "Opcode::A".data ≠ "Opcode::OP_1".data := by
  decide

/-- C2 (amended): the extraction loop performs no duplicate check at
all: for any list of valid identifier names, duplicated or not, the
Extractor succeeds and returns one entry per declaration line, and the
run proceeds to process both target files and exits 0. -/
theorem claim2_duplicates_not_detected (L : List (List Char)) (g p : Option (List Char))
    (hv : ∀ n ∈ L, n ≠ [] ∧ ∀ c ∈ n, identChar c = true) :
    extract_names (renderEnum L) = some L ∧
    run_script (renderEnum L) g p = ⟨0, g.map (rewrite L), p.map (regen_debug_table L)⟩ := by
  constructor
  · unfold extract_names
    rw [(renderEnum_parts L hv).1, Option.map_some', (renderEnum_parts L hv).2]
  · simp [run_script, (renderEnum_parts L hv).1, (renderEnum_parts L hv).2]

theorem claim2_witness :
    extract_names (renderEnum [['A'], ['A']]) = some [['A'], ['A']] ∧
    run_script (renderEnum [['A'], ['A']]) (some "Opcode::OP_1".data) none =
      ⟨0, (some "Opcode::OP_1".data).map (rewrite [['A'], ['A']]),
        Option.map (regen_debug_table [['A'], ['A']]) none⟩ :=
  ⟨(claim2_duplicates_not_detected [['A'], ['A']] (some "Opcode::OP_1".data) none
      (by decide)).1,
   (claim2_duplicates_not_detected [['A'], ['A']] (some "Opcode::OP_1".data) none
      (by decide)).2⟩

/-- C3: `repl_op` rewrites a placeholder whose parsed numeral is at
least the table size to the fallback cast embedding exactly that
numeral, and never to a symbolic reference; a numeral below the table
size is rewritten to the symbolic reference built from the table entry
at that index. -/
theorem claim3_fallback_and_symbolic (names : List (List Char)) (d : List Char) :
    (names.length ≤ valDigits d →
      replOp names d
        = "static_cast<Opcode>(".data ++ (Nat.repr (valDigits d)).data ++ ")".data ∧
      ∀ n : List Char, replOp names d ≠ "Opcode::".data ++ n) ∧
    (∀ hlt : valDigits d < names.length,
      replOp names d = "Opcode::".data ++ names.get ⟨valDigits d, hlt⟩ ∧
      index_to_name names (valDigits d) = some (names.get ⟨valDigits d, hlt⟩)) := by
  constructor
  · intro hge
    have hnone : index_to_name names (valDigits d) = none := List.get?_eq_none.mpr hge
    have hform : replOp names d
        = "static_cast<Opcode>(".data ++ (Nat.repr (valDigits d)).data ++ ")".data := by
      simp [replOp, hnone]
    refine ⟨hform, ?_⟩
    intro n hn
    rw [hform] at hn
    have hh := congrArg List.head? hn
    rw [show ("static_cast<Opcode>(".data ++ (Nat.repr (valDigits d)).data ++ ")".data).head?
        = some 's' from rfl] at hh
    rw [show (("Opcode::".data : List Char) ++ n).head? = some 'O' from rfl] at hh
    exact absurd hh (by decide)
  · intro hlt
    have hsome : index_to_name names (valDigits d) = some (names.get ⟨valDigits d, hlt⟩) :=
      List.get?_eq_get hlt
    exact ⟨by simp [replOp, hsome], hsome⟩

theorem claim3_witness :
    (["LOAD".data, "STORE".data, "JUMP".data].length ≤ valDigits "7".data ∧
      replOp ["LOAD".data, "STORE".data, "JUMP".data] "7".data
        = "static_cast<Opcode>(".data ++ (Nat.repr (valDigits "7".data)).data ++ ")".data) ∧
    (valDigits "1".data < ["LOAD".data, "STORE".data, "JUMP".data].length ∧
      replOp ["LOAD".data, "STORE".data, "JUMP".data] "1".data
        = "Opcode::".data ++ ["LOAD".data, "STORE".data, "JUMP".data].get
            ⟨valDigits "1".data, by decide⟩) :=
  ⟨⟨by decide,
    ((claim3_fallback_and_symbolic ["LOAD".data, "STORE".data, "JUMP".data] "7".data).1
      (by decide)).1⟩,
   ⟨by decide,
    ((claim3_fallback_and_symbolic ["LOAD".data, "STORE".data, "JUMP".data] "1".data).2
      (by decide)).1⟩⟩

/-- C4 (counterexample): the Rewriter is not idempotent in general.
With the table mapping index 0 to X and index 1 to OP_0, the already
fully rewritten text produced from a reference to index 1 is the
symbolic reference to the name OP_0 — which the placeholder pattern
matches again, so a second run rewrites it once more. -/
theorem claim4_counterexample :
    rewrite [['X'], "OP_0".data] (rewrite [['X'], "OP_0".data] "Opcode::OP_1".data)
      ≠ rewrite [['X'], "OP_0".data] "Opcode::OP_1".data ∧
    rewrite [['X'], "OP_0".data] "Opcode::OP_1".data = "Opcode::OP_0".data ∧
    rewrite [['X'], "OP_0".data] "Opcode::OP_0".data = "Opcode::X".data := by
  decide

/-- C4 (amended): re-running the Rewriter is byte-identical whenever the
first run's output contains no placeholder match.  This sufficient
condition is not universal: references in symbolic form are matched
again when a table name itself has the placeholder shape, and then a
second run can change the text, as the counterexample shows. -/
theorem claim4_idempotent_on_matchfree (names : List (List Char)) (t : List Char)
    (h : numMatches (rewrite names t) = 0) :
    rewrite names (rewrite names t) = rewrite names t :=
  rewriteF_id_of_no_matches names (rewrite names t).length (rewrite names t) h

theorem claim4_witness :
    numMatches (rewrite ["LOAD".data] "x = Opcode::OP_0;".data) = 0 ∧
    rewrite ["LOAD".data] (rewrite ["LOAD".data] "x = Opcode::OP_0;".data)
      = rewrite ["LOAD".data] "x = Opcode::OP_0;".data :=
  ⟨by decide, claim4_idempotent_on_matchfree ["LOAD".data] "x = Opcode::OP_0;".data (by decide)⟩

/-- C5: whenever the debug-table search finds the block, the file text
decomposes as prefix, opening delimiter, body, closing delimiter,
suffix, and regeneration rebuilds the file as that exact prefix, the
fresh block, and that exact suffix — the bytes strictly before the
opening delimiter and strictly after the closing delimiter are
unchanged. -/
theorem claim5_block_frame (names : List (List Char)) (pt p b s : List Char)
    (h : opSearch pt = some (p, b, s)) :
    pt = p ++ mapLit ++ b ++ rbrace :: ';' :: s ∧
    regen_debug_table names pt = p ++ new_block names ++ s :=
  ⟨opSearch_sound pt p b s h, by simp [regen_debug_table, h]⟩

theorem claim5_witness :
    "PRE ".data ++ mapLit ++ "old".data ++ rbrace :: ';' :: " POST".data
      = "PRE ".data ++ mapLit ++ "old".data ++ rbrace :: ';' :: " POST".data ∧
    regen_debug_table [['A']]
        ("PRE ".data ++ mapLit ++ "old".data ++ rbrace :: ';' :: " POST".data)
      = "PRE ".data ++ new_block [['A']] ++ " POST".data :=
  claim5_block_frame [['A']]
    ("PRE ".data ++ mapLit ++ "old".data ++ rbrace :: ';' :: " POST".data)
    "PRE ".data "old".data " POST".data (by decide)

/-- C6 (counterexample): a debug-table file without the delimited block
does not make the run fail: the script prints a message, leaves the file
unchanged, and the process still exits 0 — contradicting the claimed
`BlockNotFoundError` with a non-zero exit code. -/
theorem claim6_counterexample :
    run_script (renderEnum [['A']]) none (some "no table block here".data)
      = ⟨0, none, some "no table block here".data⟩ := by
  decide

/-- C6 (amended): when the block delimiters match zero times, the
Regenerator leaves the debug-table file byte-for-byte unchanged and the
process exits 0 (only a message is printed); multiple occurrences of the
delimiters are not detected as an error — the leftmost block is replaced
and the rest of the file, including the second block, is kept. -/
theorem claim6_zero_exit_without_block (opT body pt : List Char) (g : Option (List Char))
    (h1 : enumSearch opT = some body) (h2 : opSearch pt = none) :
    run_script opT g (some pt) = ⟨0, g.map (rewrite (names_of body)), some pt⟩ ∧
    regen_debug_table [['X']]
        (mapLit ++ 'a' :: rbrace :: ';' :: ("MID".data ++ mapLit ++ 'b' :: rbrace :: ';' :: []))
      = new_block [['X']] ++ ("MID".data ++ mapLit ++ 'b' :: rbrace :: ';' :: []) := by
  constructor
  · simp [run_script, h1, regen_debug_table, h2]
  · decide

theorem claim6_witness :
    run_script (renderEnum [['A']]) none (some ['x']) = ⟨0, none, some ['x']⟩ :=
  (claim6_zero_exit_without_block (renderEnum [['A']]) "\nA,\n".data ['x'] none
    (by decide) (by decide)).1

/-- C7 (counterexample): an enumeration source containing two
declaration blocks does not fail: the Extractor silently uses the first
block, the run completes with exit code 0, and the debug-table file is
written — contradicting the claimed `ExtractionError` on an ambiguous
declaration. -/
theorem claim7_counterexample :
    extract_names (renderEnum [['A']] ++ renderEnum [['B']]) = some [['A']] ∧
    run_script (renderEnum [['A']] ++ renderEnum [['B']]) none
        (some (mapLit ++ 'x' :: rbrace :: ';' :: []))
      = ⟨0, none, some (new_block [['A']])⟩ := by
  decide

/-- C7 (amended): when no declaration block is found the run aborts with
exit code 1 before writing any file, leaving both target files exactly
as given; when more than one block exists there is no error — the
Extractor takes the leftmost block and ignores the rest. -/
theorem claim7_abort_and_first_block (opT : List Char) (g p : Option (List Char))
    (h : enumSearch opT = none) :
    run_script opT g p = ⟨1, g, p⟩ ∧
    extract_names (renderEnum [['A']] ++ renderEnum [['B']]) = some [['A']] := by
  constructor
  · simp [run_script, h]
  · decide

theorem claim7_witness :
    run_script "no enumeration anywhere".data none none = ⟨1, none, none⟩ :=
  (claim7_abort_and_first_block "no enumeration anywhere".data none none (by decide)).1

/-- C8: the Regenerator's replacement block is built from the symbol
table alone — one debug entry per known symbol, in canonical index
order, regardless of what the prior block contained; for the names LOAD,
STORE, JUMP the block holds exactly the three entries (LOAD, "LOAD"),
(STORE, "STORE"), (JUMP, "JUMP"), in that order. -/
theorem claim8_regen_entries (names : List (List Char)) (pt p b s : List Char)
    (h : opSearch pt = some (p, b, s)) :
    regen_debug_table names pt = p ++ new_block names ++ s ∧
    new_block names
      = mapLit ++ '\n' :: (joinSep ['\n'] (names.map entryFor) ++ '\n' :: rbrace :: ';' :: []) ∧
    new_block ["LOAD".data, "STORE".data, "JUMP".data] =
      ("const std::unordered_map<Opcode, std::string> OPCODE_NAMES = \x7b\n    \x7bOpcode::LOAD, \"LOAD\"\x7d,\n    \x7bOpcode::STORE, \"STORE\"\x7d,\n    \x7bOpcode::JUMP, \"JUMP\"\x7d,\n\x7d;").data := by
  refine ⟨by simp [regen_debug_table, h], rfl, by decide⟩

theorem claim8_witness :
    regen_debug_table ["LOAD".data, "STORE".data, "JUMP".data]
        ("before\n".data ++ mapLit ++ "\n  old junk\n".data ++ rbrace :: ';' :: "\nafter".data)
      = "before\n".data ++ new_block ["LOAD".data, "STORE".data, "JUMP".data] ++ "\nafter".data :=
  (claim8_regen_entries ["LOAD".data, "STORE".data, "JUMP".data]
    ("before\n".data ++ mapLit ++ "\n  old junk\n".data ++ rbrace :: ';' :: "\nafter".data)
    "before\n".data "\n  old junk\n".data "\nafter".data (by decide)).1

/-- C9: the Rewriter's single pass decomposes the input into literal
chunks and placeholder matches; reassembling the decomposition with the
original match text gives back the input byte-for-byte, and the
Rewriter's output is the same decomposition with each match replaced by
`repl_op` — so every substring outside a match survives unchanged and
only matched placeholder occurrences are replaced. -/
theorem claim9_rewriter_frame (names : List (List Char)) (cs : List Char) :
    joinOrig (segs cs) = cs ∧
    rewrite names cs = joinRepl names (segs cs) ∧
    ∀ ld ∈ (segs cs).1, ld.2 ≠ [] ∧ ∀ c ∈ ld.2, c.isDigit = true :=
  ⟨joinOrig_segsF cs.length cs, rewriteF_joinRepl names cs.length cs,
   segsF_digits cs.length cs⟩

/-- C10: the extraction loop takes only the first whitespace-separated
token of each surviving line, so a member declared with an explicit
value (`NAME = 5,`) is accepted with the value silently ignored, and its
table index is its zero-based declaration position, not the explicit
value. -/
theorem claim10_explicit_value_ignored (L : List (List Char × List Char))
    (hv : ∀ nv ∈ L, nv.1 ≠ [] ∧ (∀ c ∈ nv.1, identChar c = true) ∧
      nv.2 ≠ [] ∧ (∀ c ∈ nv.2, identChar c = true)) :
    extract_names (renderEnumLines (L.map fun nv => renderLineEq nv.1 nv.2))
      = some (L.map Prod.fst) ∧
    ∀ i (hi : i < L.length),
      index_to_name (L.map Prod.fst) i = some (L.get ⟨i, hi⟩).1 := by
  constructor
  · have hcond : ∀ l ∈ L.map (fun nv => renderLineEq nv.1 nv.2), '\n' ∉ l ∧ rbrace ∉ l := by
      intro l hl
      rcases List.mem_map.mp hl with ⟨nv, hnv, rfl⟩
      obtain ⟨hx1, hx2, hx3, hx4⟩ := hv nv hnv
      exact ⟨notMem_renderLineEq '\n' _ _ hx2 hx4 (by decide) (by decide) (by decide) (by decide),
             notMem_renderLineEq rbrace _ _ hx2 hx4 (by decide) (by decide) (by decide) (by decide)⟩
    have h := extract_render (L.map fun nv => renderLineEq nv.1 nv.2) [] hcond
    rw [List.append_nil] at h
    rw [h, filterMap_proc_map (fun nv => renderLineEq nv.1 nv.2) Prod.fst L
      (fun a ha => procLine_eqval a.1 a.2 (hv a ha).1 (hv a ha).2.1
        (hv a ha).2.2.1 (hv a ha).2.2.2)]
  · intro i hi
    have hlen : i < (L.map Prod.fst).length := by simpa using hi
    rw [show index_to_name (L.map Prod.fst) i = (L.map Prod.fst).get? i from rfl]
    rw [List.get?_eq_get hlen, List.get_map]

theorem claim10_witness :
    extract_names (renderEnumLines [renderLineEq "NAME".data "5".data]) = some ["NAME".data] ∧
    index_to_name ["NAME".data] 0 = some "NAME".data :=
  ⟨(claim10_explicit_value_ignored [("NAME".data, "5".data)] (by decide)).1,
   (claim10_explicit_value_ignored [("NAME".data, "5".data)] (by decide)).2 0 (by decide)⟩
